import Mathlib

/-!
Verification of the microphone pitch-detection pipeline of the
`music-reader` repository against its natural-language specification.

The embedding covers:

* the frequency-to-natural-note mapper `freqToNote` (identical in
  `src/src/utils/micUtils.js` and `src/unnamed/part_007`);
* the RMS helper `getRms`;
* the stability-gate / cooldown state machine of the per-frame `loop`
  in `src/src/utils/micUtils.js` (YIN variant: 3 stable frames,
  100 ms any-note cooldown, 1500 ms same-note cooldown, no silence
  tracking) — namespace `MicUtils`;
* the stability gate of `src/unnamed/part_007` (MPM variant: 2 stable
  frames, 80 ms / 700 ms cooldowns, silence-gap tracking with
  4 silence frames) — namespace `MicUtilsMpm`;
* the module-level lifecycle state touched by `stopMicListening`,
  `suppressMicListening` and the error path of `startMicListening`.

Real-valued quantities (frequencies, MIDI values, RMS) are modelled
over ordered fields: the natural-note search loop is polymorphic over a
`LinearOrderedField` with a `FloorRing` structure so that it can be run
computably over `ℚ` and reasoned about over `ℝ`; the one transcendental
step, `midiFloat = 12 * log2(freq / 440) + 69`, is modelled over `ℝ`
with `Real.logb`.
-/

/-- A detected note candidate `{ name, octave }` as produced by
`freqToNote`: a note-name string from `NOTE_NAMES` plus an octave. -/
structure Note where
  name : String
  octave : ℤ
deriving DecidableEq, Repr

/-- `const NOTE_NAMES = ['C', 'C#', 'D', 'D#', 'E', 'F', 'F#', 'G', 'G#', 'A', 'A#', 'B']`. -/
def NOTE_NAMES : List String :=
  ["C", "C#", "D"] ++ ["D#", "E", "F"] ++ ["F#", "G", "G#"] ++
    ["A"] ++ ["A#", "B"]

/-- `NOTE_NAMES[((midi % 12) + 12) % 12]` — the pitch-class name of an
integer MIDI value. -/
def noteName (midi : ℤ) : String :=
  NOTE_NAMES.getD (((midi % 12 + 12) % 12).toNat) ""

/-- An integer MIDI value is a natural note (A–G) exactly when its
pitch-class name carries no `'#'` — the check `name.includes('#')`
used by the source to skip sharps (expressed on the character list of
the name). -/
def IsNaturalMidi (midi : ℤ) : Prop :=
  (noteName midi).data.contains '#' = false

instance (midi : ℤ) : Decidable (IsNaturalMidi midi) := by
  unfold IsNaturalMidi; infer_instance

/-- JavaScript `Math.round`: rounds half-up, `Math.round(x) = ⌊x + 1/2⌋`. -/
def jsRound {α : Type} [LinearOrderedField α] [FloorRing α] (x : α) : ℤ :=
  ⌊x + 1 / 2⌋

/-- One iteration of the candidate-search loop in `freqToNote`
(lines 43–51 of `micUtils.js`): skip sharp pitch classes, otherwise
keep the candidate when its distance to `midiFloat` is strictly below
the best distance so far (`bestDist` starts at `Infinity`, modelled by
`⊤ : WithTop α`). -/
def snapStep {α : Type} [LinearOrderedField α] (midiFloat : α)
    (best : Option ℤ × WithTop α) (midi : ℤ) : Option ℤ × WithTop α :=
  if (noteName midi).data.contains '#' then best
  else if (↑|midiFloat - (midi : α)| : WithTop α) < best.2 then
    (some midi, ↑|midiFloat - (midi : α)|)
  else best

/-- The natural-note snapping loop of `freqToNote` (lines 39–56): search
the five integer MIDI values centred on `Math.round(midiFloat)`, keep
the nearest natural one, and reject it when `bestDist > snapTolerance`
(or when no natural candidate was found). -/
def snapToNatural {α : Type} [LinearOrderedField α] [FloorRing α]
    (midiFloat tol : α) : Option Note :=
  let center := jsRound midiFloat
  let best := [center - 2, center - 1, center, center + 1, center + 2].foldl
    (snapStep midiFloat) (none, ⊤)
  match best.1 with
  | none => none
  | some bestMidi =>
    if (↑tol : WithTop α) < best.2 then none
    else some ⟨noteName bestMidi, Int.fdiv bestMidi 12 - 1⟩

/-- `const midiFloat = 12 * Math.log2(freq / 440) + 69`. -/
noncomputable def midiOf (f : ℝ) : ℝ :=
  12 * Real.logb 2 (f / 440) + 69

/-- `freqToNote(freq, snapTolerance)` (lines 35–57 of `micUtils.js`):
reject frequencies outside `[27, 4200]` Hz, otherwise snap the
fractional MIDI value to the nearest natural note. -/
noncomputable def freqToNote (f tol : ℝ) : Option Note :=
  if f < 27 ∨ f > 4200 then none
  else snapToNatural (midiOf f) tol

/-- `getRms(buf)` (lines 60–64): square root of the mean of the squared
samples.  On an empty buffer the source computes `Math.sqrt(0/0)`,
which is IEEE `NaN`; the reals cannot represent `NaN`, so the result is
an `Option ℝ`, `none` standing for that `NaN` outcome and `some` for
every ordinary float result. -/
noncomputable def getRms (buf : List ℝ) : Option ℝ :=
  if buf.length = 0 then none
  else some (Real.sqrt
    ((buf.foldl (fun sum x => sum + x * x) 0) / (buf.length : ℝ)))

/-- A unit-amplitude sine wave sampled at four samples per period
(samples `sin(2π k / 4)`), the cleanest buffer on which the RMS of a
sine is exact. -/
noncomputable def sineBuf (n : ℕ) : List ℝ :=
  (List.range n).map (fun k : ℕ => Real.sin (2 * Real.pi * (k : ℝ) / 4))

namespace MicUtils

/-- `const STABLE_FRAMES = 3`. -/
def STABLE_FRAMES : ℕ := 3

/-- `const ANY_NOTE_COOLDOWN_MS = 100`. -/
def ANY_NOTE_COOLDOWN_MS : ℤ := 100

/-- `const SAME_NOTE_COOLDOWN_MS = 1500`. -/
def SAME_NOTE_COOLDOWN_MS : ℤ := 1500

/-- The mutable module state read and written by the per-frame `loop`
of `src/src/utils/micUtils.js`: `lastFiredNote`, `lastFiredTime`,
`suppressUntil`, `stableNote`, `stableCount`.  Times are `Date.now()`
millisecond timestamps. -/
structure MicState where
  lastFiredNote : Option String
  lastFiredTime : ℤ
  suppressUntil : ℤ
  stableNote : Option Note
  stableCount : ℕ
deriving DecidableEq, Repr

/-- The initial values of the module-level variables (lines 19–26). -/
def micInit : MicState :=
  { lastFiredNote := none, lastFiredTime := 0, suppressUntil := 0,
    stableNote := none, stableCount := 0 }

/-- One iteration of `loop` (lines 90–143) as a pure state transformer:
given the frame's note candidate (`freqToNote` applied to the detected
pitch, `none` on silence / rejected pitch) and the current time
`Date.now()`, produce the updated module state and the note passed to
`onNote` when one fires (`none` otherwise).  The `onHeard` callback
reads but never writes state and is not modelled. -/
def micStep (s : MicState) (note : Option Note) (now : ℤ) :
    MicState × Option Note :=
  -- lines 108–114: tracking update (no reset on silence)
  let s1 :=
    match note, s.stableNote with
    | some n, some t =>
      if n.name = t.name then { s with stableCount := s.stableCount + 1 }
      else { s with stableNote := some n, stableCount := 1 }
    | some n, none => { s with stableNote := some n, stableCount := 1 }
    | none, _ => s
  -- lines 120–125: hard suppression window
  if now < s1.suppressUntil then
    ({ s1 with stableNote := none, stableCount := 0 }, none)
  else
    -- lines 127–141: stability check, cooldowns, fire
    match s1.stableNote with
    | some t =>
      if s1.stableCount ≥ STABLE_FRAMES then
        if now - s1.lastFiredTime < ANY_NOTE_COOLDOWN_MS then (s1, none)
        else if s1.lastFiredNote ≠ some t.name ∨
            now - s1.lastFiredTime > SAME_NOTE_COOLDOWN_MS then
          ({ s1 with lastFiredNote := some t.name, lastFiredTime := now,
                     stableNote := none, stableCount := 0 }, some t)
        else (s1, none)
      else (s1, none)
    | none => (s1, none)

/-- Run `loop` over a list of frames, each a pair of the frame's note
candidate and its `Date.now()` timestamp; collect the fired notes in
order. -/
def micRun : MicState → List (Option Note × ℤ) → MicState × List Note
  | s, [] => (s, [])
  | s, f :: rest =>
    let r := micStep s f.1 f.2
    let rr := micRun r.1 rest
    (rr.1, r.2.toList ++ rr.2)

/-- A tracking state that cannot fire soon: either nothing is tracked,
or the tracked note carries name `nm` with support count at most `k`. -/
def LowTracked (s : MicState) (nm : String) (k : ℕ) : Prop :=
  s.stableNote = none ∨
    (s.stableCount ≤ k ∧ ∃ u, s.stableNote = some u ∧ u.name = nm)

/-- A sustained 440 Hz tone under the `normal` preset, starting at
`Date.now() = 10000` and analysed at 60 fps: every frame carries the
candidate `{name: 'A', octave: 4}` (the `freqToNote` image of 440 Hz,
see `midiOf_440`) at 16 ms spacing. -/
def a4Schedule (n : ℕ) : List (Option Note × ℤ) :=
  (List.range n).map (fun k : ℕ => (some ⟨"A", 4⟩, 10000 + 16 * (k : ℤ)))

/-- `suppressMicListening(durationMs)` (lines 157–159): the new value of
`suppressUntil` given the current time. -/
def suppressMicListening (now durationMs : ℤ) : ℤ :=
  now + durationMs

/-- All module-level mutable variables of `src/src/utils/micUtils.js`.
The resource handles (`rafId`, `source`, `analyser`, `audioCtx`,
`stream`) are modelled as optional opaque ids: `none` is the released
(`null`) state. -/
structure MicModule where
  rafId : Option ℕ
  source : Option ℕ
  analyser : Option ℕ
  audioCtx : Option ℕ
  stream : Option ℕ
  lastFiredNote : Option String
  lastFiredTime : ℤ
  suppressUntil : ℤ
  stableNote : Option Note
  stableCount : ℕ
deriving DecidableEq, Repr

/-- The initial released values of the module variables (lines 14–26). -/
def releasedModule : MicModule :=
  { rafId := none, source := none, analyser := none, audioCtx := none,
    stream := none, lastFiredNote := none, lastFiredTime := 0,
    suppressUntil := 0, stableNote := none, stableCount := 0 }

/-- `stopMicListening()` (lines 162–173) as a state transformer: each
handle is released behind its null-guard (`cancelAnimationFrame`,
`disconnect`, `close`, `getTracks().forEach(stop)` are external side
effects with no further module-state effect), then every detection
variable is reset.  The function is total: it raises no error. -/
def stopMicListening (s : MicModule) : MicModule :=
  let s1 := if s.rafId ≠ none then { s with rafId := none } else s
  let s2 := if s1.source ≠ none then { s1 with source := none } else s1
  let s3 := { s2 with analyser := none }
  let s4 := if s3.audioCtx ≠ none then { s3 with audioCtx := none } else s3
  let s5 := if s4.stream ≠ none then { s4 with stream := none } else s4
  { s5 with lastFiredNote := none, lastFiredTime := 0, suppressUntil := 0,
            stableNote := none, stableCount := 0 }

/-- A JavaScript exception as observed by the `catch` block of
`startMicListening`: its `name` and `message`. -/
structure JsError where
  name : String
  message : String
deriving DecidableEq, Repr

/-- The denial message returned for `NotAllowedError` (line 148; the
source file literally contains the bytes `â€”` at the dash). -/
def deniedMsg : String :=
  "Microphone access denied â€” allow it in your browser settings and try again."

/-- The return value of `startMicListening` (lines 73–151) as a
function of the outcome of the `try` block (the stream/audio-graph
acquisition, the only part that can throw): `null` on success, and on
an exception the string produced by the `catch` block (lines 146–150).
The function is total — no exception propagates to the caller. -/
def startMicListeningResult (acquire : Except JsError Unit) : Option String :=
  match acquire with
  | .ok _ => none
  | .error err =>
    some (if err.name = "NotAllowedError" then deniedMsg
          else "Microphone error: " ++ err.message)

end MicUtils

namespace MicUtilsMpm

/-- `const STABLE_FRAMES = 2` (`src/unnamed/part_007` line 45). -/
def STABLE_FRAMES : ℕ := 2

/-- `const ANY_NOTE_COOLDOWN_MS = 80` (line 44). -/
def ANY_NOTE_COOLDOWN_MS : ℤ := 80

/-- `const SAME_NOTE_COOLDOWN_MS = 700` (line 43). -/
def SAME_NOTE_COOLDOWN_MS : ℤ := 700

/-- `const SILENCE_GAP_FRAMES = 4` (line 46). -/
def SILENCE_GAP_FRAMES : ℕ := 4

/-- The mutable detection state of the `loop` in `src/unnamed/part_007`:
as in `micUtils.js` plus the `silenceFrames` counter. -/
structure MpmState where
  lastFiredNote : Option String
  lastFiredTime : ℤ
  suppressUntil : ℤ
  stableNote : Option Note
  stableCount : ℕ
  silenceFrames : ℕ
deriving DecidableEq, Repr

/-- Lines 147–154 of `src/unnamed/part_007`: silence-gap tracking.
When the frame's RMS is below `rmsThreshold * 1.5`, increment the
silence counter and, once it reaches `SILENCE_GAP_FRAMES`, clear
`lastFiredNote`; otherwise reset the counter. -/
def silenceUpdate (rmsThreshold : ℚ) (s : MpmState) (rms : ℚ) : MpmState :=
  if rms < rmsThreshold * 1.5 then
    if s.silenceFrames + 1 ≥ SILENCE_GAP_FRAMES then
      { s with silenceFrames := s.silenceFrames + 1, lastFiredNote := none }
    else { s with silenceFrames := s.silenceFrames + 1 }
  else { s with silenceFrames := 0 }

/-- Lines 165–171: the tracking update (identical to `micUtils.js`):
increment on a matching name, replace on a differing candidate, leave
unchanged on no candidate. -/
def mpmTrack (s : MpmState) (note : Option Note) : MpmState :=
  match note, s.stableNote with
  | some n, some t =>
    if n.name = t.name then { s with stableCount := s.stableCount + 1 }
    else { s with stableNote := some n, stableCount := 1 }
  | some n, none => { s with stableNote := some n, stableCount := 1 }
  | none, _ => s

/-- Lines 177–198: the suppression window, stability check, cooldowns
and fire. -/
def mpmFire (s1 : MpmState) (now : ℤ) : MpmState × Option Note :=
  if now < s1.suppressUntil then
    ({ s1 with stableNote := none, stableCount := 0 }, none)
  else
    match s1.stableNote with
    | some t =>
      if s1.stableCount ≥ STABLE_FRAMES then
        if now - s1.lastFiredTime < ANY_NOTE_COOLDOWN_MS then (s1, none)
        else if s1.lastFiredNote ≠ some t.name ∨
            now - s1.lastFiredTime > SAME_NOTE_COOLDOWN_MS then
          ({ s1 with lastFiredNote := some t.name, lastFiredTime := now,
                     stableNote := none, stableCount := 0 }, some t)
        else (s1, none)
      else (s1, none)
    | none => (s1, none)

/-- One iteration of the `loop` of `src/unnamed/part_007`
(lines 132–200) as a pure state transformer: the three stages above in
source order.  Inputs per frame: the frame's RMS, the preset's
`rmsThreshold`, the note candidate (only non-`none` in the source when
`rms ≥ rmsThreshold` and the detected pitch snaps to a natural), and
the current time. -/
def mpmStep (rmsThreshold : ℚ) (s : MpmState) (rms : ℚ)
    (note : Option Note) (now : ℤ) : MpmState × Option Note :=
  mpmFire (mpmTrack (silenceUpdate rmsThreshold s rms) note) now

/-- Run the MPM `loop` over a list of frames `(rms, candidate, now)`,
collecting the fired notes in order. -/
def mpmRun (rmsThreshold : ℚ) :
    MpmState → List (ℚ × Option Note × ℤ) → MpmState × List Note
  | s, [] => (s, [])
  | s, f :: rest =>
    let r := mpmStep rmsThreshold s f.1 f.2.1 f.2.2
    let rr := mpmRun rmsThreshold r.1 rest
    (rr.1, r.2.toList ++ rr.2)

end MicUtilsMpm

namespace MicUtils

/-- Helper: a frame with a candidate while nothing is tracked, not
suppressed, starts tracking at count 1 and fires nothing. -/
theorem micStep_new (s : MicState) (n : Note) (now : ℤ)
    (hIdle : s.stableNote = none) (hsu : s.suppressUntil ≤ now) :
    micStep s (some n) now =
      ({ s with stableNote := some n, stableCount := 1 }, none) := by
  obtain ⟨lfn, lft, su, sn, sc⟩ := s
  simp only at hIdle hsu
  subst hIdle
  simp only [micStep]
  rw [if_neg (by omega)]
  simp [STABLE_FRAMES]

/-- Helper: a frame whose candidate matches the tracked name, not
suppressed, with the incremented count still below the stability
threshold, only increments the count. -/
theorem micStep_inc (s : MicState) (n t : Note) (now : ℤ)
    (ht : s.stableNote = some t) (hname : n.name = t.name)
    (hsu : s.suppressUntil ≤ now) (hc : s.stableCount + 1 < STABLE_FRAMES) :
    micStep s (some n) now =
      ({ s with stableCount := s.stableCount + 1 }, none) := by
  obtain ⟨lfn, lft, su, sn, sc⟩ := s
  simp only at ht hsu hc
  subst ht
  simp only [micStep, if_pos hname]
  rw [if_neg (by omega)]
  simp only [STABLE_FRAMES] at hc ⊢
  rw [if_neg (by omega)]

/-- Helper: a frame whose candidate matches the tracked name, not
suppressed, reaching the stability threshold with both cooldowns
satisfied, fires the tracked note and resets tracking. -/
theorem micStep_fire (s : MicState) (n t : Note) (now : ℤ)
    (ht : s.stableNote = some t) (hname : n.name = t.name)
    (hsu : s.suppressUntil ≤ now)
    (hc : STABLE_FRAMES ≤ s.stableCount + 1)
    (hany : ANY_NOTE_COOLDOWN_MS ≤ now - s.lastFiredTime)
    (hsame : s.lastFiredNote ≠ some t.name ∨
      now - s.lastFiredTime > SAME_NOTE_COOLDOWN_MS) :
    micStep s (some n) now =
      ({ s with lastFiredNote := some t.name, lastFiredTime := now,
                stableNote := none, stableCount := 0 }, some t) := by
  obtain ⟨lfn, lft, su, sn, sc⟩ := s
  simp only at ht hsu hc hany hsame
  subst ht
  simp only [micStep, if_pos hname]
  rw [if_neg (by omega)]
  simp only [STABLE_FRAMES, ANY_NOTE_COOLDOWN_MS, SAME_NOTE_COOLDOWN_MS]
    at hany hc hsame ⊢
  rw [if_pos (by omega), if_neg (by omega),
    if_pos hsame]

/-- Helper: frames 1–3 of a stable candidate from an idle tracking
state.  Three consecutive frames whose candidates share one note name,
starting with no tracked note, with no suppression and with both
cooldowns satisfied at the third frame, fire exactly the first
candidate and reset tracking. -/
theorem micRun_three_stable (s : MicState) (n1 n2 n3 : Note) (t1 t2 t3 : ℤ)
    (hIdle : s.stableNote = none)
    (h21 : n2.name = n1.name) (h31 : n3.name = n1.name)
    (hs1 : s.suppressUntil ≤ t1) (hs2 : s.suppressUntil ≤ t2)
    (hs3 : s.suppressUntil ≤ t3)
    (hany : ANY_NOTE_COOLDOWN_MS ≤ t3 - s.lastFiredTime)
    (hsame : s.lastFiredNote ≠ some n1.name ∨
      t3 - s.lastFiredTime > SAME_NOTE_COOLDOWN_MS) :
    micRun s [(some n1, t1), (some n2, t2), (some n3, t3)] =
      ({ s with lastFiredNote := some n1.name, lastFiredTime := t3,
                stableNote := none, stableCount := 0 }, [n1]) := by
  have e1 := micStep_new s n1 t1 hIdle hs1
  simp only [micRun, e1]
  have e2 := micStep_inc { s with stableNote := some n1, stableCount := 1 }
    n2 n1 t2 rfl h21 hs2 (by simp [STABLE_FRAMES])
  simp only [e2]
  have e3 := micStep_fire
    { s with stableNote := some n1, stableCount := 1 + 1 } n3 n1 t3 rfl h31
    hs3 (by simp [STABLE_FRAMES]) hany hsame
  simp only [] at e3
  simp only [e3, micRun]
  simp

/-- Helper: a frame inside the suppression window clears tracking and
fires nothing, whatever the candidate. -/
theorem micStep_suppressed (s : MicState) (note : Option Note) (now : ℤ)
    (h : now < s.suppressUntil) :
    micStep s note now =
      ({ s with stableNote := none, stableCount := 0 }, none) := by
  obtain ⟨lfn, lft, su, sn, sc⟩ := s
  simp only at h
  rcases note with _ | n <;> rcases sn with _ | t
  · simp only [micStep]; rw [if_pos h]
  · simp only [micStep]; rw [if_pos h]
  · simp only [micStep]; rw [if_pos h]
  · by_cases hn : n.name = t.name
    · simp only [micStep]; rw [if_pos hn, if_pos h]
    · simp only [micStep]; rw [if_neg hn, if_pos h]

/-- Helper: while the frame's candidate (if any) carries the name of
`lastFiredNote`, the tracked note (if any) carries that name too, and
the same-note cooldown has not yet elapsed, a frame fires nothing and
leaves the firing bookkeeping unchanged. -/
theorem micStep_blocked (s : MicState) (note : Option Note) (now : ℤ)
    (nm : String) (hl : s.lastFiredNote = some nm)
    (hs : s.stableNote = none ∨ ∃ u, s.stableNote = some u ∧ u.name = nm)
    (hn : ∀ n, note = some n → n.name = nm)
    (ht : now - s.lastFiredTime ≤ SAME_NOTE_COOLDOWN_MS) :
    (micStep s note now).2 = none ∧
    (micStep s note now).1.lastFiredNote = some nm ∧
    (micStep s note now).1.lastFiredTime = s.lastFiredTime ∧
    (micStep s note now).1.suppressUntil = s.suppressUntil ∧
    ((micStep s note now).1.stableNote = none ∨
      ∃ u, (micStep s note now).1.stableNote = some u ∧ u.name = nm) := by
  obtain ⟨lfn, lft, su, sn, sc⟩ := s
  simp only at hl ht hs ⊢
  subst hl
  simp only [SAME_NOTE_COOLDOWN_MS] at ht
  rcases note with _ | n
  · rcases sn with _ | t
    · simp only [micStep]
      split_ifs <;> simp
    · rcases hs with hs | ⟨u, hu, hun⟩
      · exact absurd hs (by simp)
      · have htu : t.name = nm := by
          simp only [Option.some_inj] at hu; rw [hu]; exact hun
        simp only [micStep, SAME_NOTE_COOLDOWN_MS]
        split_ifs with h1 h2 h3 h4
        · simp
        · simp [htu]
        · rcases h4 with h4 | h4
          · exact absurd (by rw [htu]) h4
          · omega
        · exact ⟨rfl, rfl, rfl, rfl, Or.inr ⟨t, rfl, htu⟩⟩
        · exact ⟨rfl, rfl, rfl, rfl, Or.inr ⟨t, rfl, htu⟩⟩
  · have hnn : n.name = nm := hn n rfl
    rcases sn with _ | t
    · simp only [micStep, SAME_NOTE_COOLDOWN_MS]
      split_ifs with h1 h2 h3 h4
      · simp
      · simp [hnn]
      · rcases h4 with h4 | h4
        · exact absurd (by rw [hnn]) h4
        · omega
      · exact ⟨rfl, rfl, rfl, rfl, Or.inr ⟨n, rfl, hnn⟩⟩
      · exact ⟨rfl, rfl, rfl, rfl, Or.inr ⟨n, rfl, hnn⟩⟩
    · rcases hs with hs | ⟨u, hu, hun⟩
      · exact absurd hs (by simp)
      · have htu : t.name = nm := by
          simp only [Option.some_inj] at hu; rw [hu]; exact hun
        have hmatch : n.name = t.name := by rw [hnn, htu]
        simp only [micStep, if_pos hmatch, SAME_NOTE_COOLDOWN_MS]
        split_ifs with h1 h2 h3 h4
        · simp
        · simp [htu]
        · rcases h4 with h4 | h4
          · exact absurd (by rw [htu]) h4
          · omega
        · exact ⟨rfl, rfl, rfl, rfl, Or.inr ⟨t, rfl, htu⟩⟩
        · exact ⟨rfl, rfl, rfl, rfl, Or.inr ⟨t, rfl, htu⟩⟩

/-- Helper: a run of frames all of whose candidates (when present)
carry the just-fired name, all within the same-note cooldown, fires
nothing and leaves the firing bookkeeping unchanged. -/
theorem micRun_blocked (nm : String) :
    ∀ (frames : List (Option Note × ℤ)) (s : MicState),
    s.lastFiredNote = some nm →
    (s.stableNote = none ∨ ∃ u, s.stableNote = some u ∧ u.name = nm) →
    (∀ f ∈ frames, (∀ n, f.1 = some n → n.name = nm) ∧
      f.2 - s.lastFiredTime ≤ SAME_NOTE_COOLDOWN_MS) →
    (micRun s frames).2 = [] ∧
    (micRun s frames).1.lastFiredNote = some nm ∧
    (micRun s frames).1.lastFiredTime = s.lastFiredTime
  | [], s, hl, hs, _ => by simp [micRun, hl]
  | f :: rest, s, hl, hs, hf => by
    have hhead := hf f (by simp)
    have hb := micStep_blocked s f.1 f.2 nm hl hs hhead.1 hhead.2
    have htime : (micStep s f.1 f.2).1.lastFiredTime = s.lastFiredTime :=
      hb.2.2.1
    have ih := micRun_blocked nm rest (micStep s f.1 f.2).1 hb.2.1 hb.2.2.2.2
      (by
        intro g hg
        refine ⟨(hf g (by simp [hg])).1, ?_⟩
        rw [htime]
        exact (hf g (by simp [hg])).2)
    simp only [micRun]
    refine ⟨?_, ih.2.1, by rw [ih.2.2, htime]⟩
    rw [hb.1]
    simpa using ih.1

/-- Helper: a frame whose candidate differs from the tracked name, not
suppressed, replaces the tracked note at count 1 and fires nothing. -/
theorem micStep_differ (s : MicState) (n t : Note) (now : ℤ)
    (ht : s.stableNote = some t) (hname : n.name ≠ t.name)
    (hsu : s.suppressUntil ≤ now) :
    micStep s (some n) now =
      ({ s with stableNote := some n, stableCount := 1 }, none) := by
  obtain ⟨lfn, lft, su, sn, sc⟩ := s
  simp only at ht hsu
  subst ht
  simp only [micStep, if_neg hname]
  rw [if_neg (by omega)]
  simp [STABLE_FRAMES]

end MicUtils

namespace MicUtils

/-- C6: during the suppression window set by `suppressMicListening`,
every frame clears the stability-tracking state (tracked note `none`,
support count `0`) and emits no `onNote` event. -/
theorem suppression_clears_tracking_no_fire :
    (∀ (s : MicState) (note : Option Note) (now : ℤ),
      now < s.suppressUntil →
      (micStep s note now).2 = none ∧
      (micStep s note now).1.stableNote = none ∧
      (micStep s note now).1.stableCount = 0) ∧
    (∀ (s : MicState) (note : Option Note) (now t d : ℤ),
      now < suppressMicListening t d →
      (micStep { s with suppressUntil := suppressMicListening t d }
        note now).2 = none ∧
      (micStep { s with suppressUntil := suppressMicListening t d }
        note now).1.stableNote = none ∧
      (micStep { s with suppressUntil := suppressMicListening t d }
        note now).1.stableCount = 0) := by
  constructor
  · intro s note now h
    rw [micStep_suppressed s note now h]
    exact ⟨rfl, rfl, rfl⟩
  · intro s note now t d h
    rw [micStep_suppressed _ note now (by simpa using h)]
    exact ⟨rfl, rfl, rfl⟩

/-- Witness for C6 at a concrete suppressed frame. -/
theorem suppression_clears_tracking_no_fire_witness :
    (50 : ℤ) < (100 : ℤ) ∧
    (micStep { micInit with suppressUntil := 100 }
      (some ⟨"A", 4⟩) 50).2 = none ∧
    (micStep { micInit with suppressUntil := 100 }
      (some ⟨"A", 4⟩) 50).1.stableNote = none ∧
    (micStep { micInit with suppressUntil := 100 }
      (some ⟨"A", 4⟩) 50).1.stableCount = 0 :=
  ⟨by decide,
    suppression_clears_tracking_no_fire.1
      { micInit with suppressUntil := 100 } (some ⟨"A", 4⟩) 50 (by decide)⟩

/-- C8: `stopMicListening` always resets every module variable to its
initial released value; in particular it is a no-op (and raises no
error — it is a total function) when no session is active, and calling
it twice in a row equals calling it once. -/
theorem stopMicListening_releases_and_idempotent (s : MicModule) :
    stopMicListening s = releasedModule ∧
    stopMicListening releasedModule = releasedModule ∧
    stopMicListening (stopMicListening s) = stopMicListening s := by
  have h : ∀ m : MicModule, stopMicListening m = releasedModule := by
    intro m
    obtain ⟨r, so, an, au, st, lfn, lft, su, sn, sc⟩ := m
    rcases r with _ | r <;> rcases so with _ | so <;>
      rcases au with _ | au <;> rcases st with _ | st <;>
      simp [stopMicListening, releasedModule]
  refine ⟨h s, h releasedModule, ?_⟩
  rw [h s, h releasedModule]

/-- C9: `startMicListening` never propagates an exception (it is a
total function of the acquisition outcome): it returns `null` on
success; on a `NotAllowedError` it returns the specific human-readable
denial message; on any other failure it returns
`"Microphone error: " ++ message`, a string distinct from the denial
message. -/
theorem startMicListening_error_contract :
    startMicListeningResult (Except.ok ()) = none ∧
    (∀ e : JsError, e.name = "NotAllowedError" →
      startMicListeningResult (Except.error e) = some deniedMsg) ∧
    (∀ e : JsError, e.name ≠ "NotAllowedError" →
      startMicListeningResult (Except.error e) =
        some ("Microphone error: " ++ e.message) ∧
      "Microphone error: " ++ e.message ≠ deniedMsg) := by
  refine ⟨rfl, fun e he => by simp [startMicListeningResult, he],
    fun e he => ⟨by simp [startMicListeningResult, he], fun heq => ?_⟩⟩
  have hdata := congrArg String.data heq
  rw [String.data_append] at hdata
  have htake := congrArg (List.take 18) hdata
  rw [List.take_append_eq_append_take] at htake
  norm_num at htake
  simp only [deniedMsg] at htake
  exact absurd htake (by decide)

/-- Witness for C9 at concrete acquisition failures. -/
theorem startMicListening_error_contract_witness :
    (JsError.mk "NotAllowedError" "denied").name = "NotAllowedError" ∧
    startMicListeningResult
      (Except.error ⟨"NotAllowedError", "denied"⟩) = some deniedMsg ∧
    (JsError.mk "NotFoundError" "no device").name ≠ "NotAllowedError" ∧
    startMicListeningResult (Except.error ⟨"NotFoundError", "no device"⟩) =
      some ("Microphone error: " ++ "no device") :=
  ⟨by decide,
    startMicListening_error_contract.2.1 ⟨"NotAllowedError", "denied"⟩ rfl,
    by decide,
    (startMicListening_error_contract.2.2 ⟨"NotFoundError", "no device"⟩
      (by decide)).1⟩


/-- Helper: from a low tracking state, a frame whose candidate carries
the tracked name fires nothing as long as the support count stays
below the stability threshold. -/
theorem micStep_low (s : MicState) (n : Note) (now : ℤ) (nm : String)
    (k : ℕ) (h : LowTracked s nm k) (hn : n.name = nm)
    (hk : k + 1 < STABLE_FRAMES) :
    (micStep s (some n) now).2 = none ∧
    LowTracked (micStep s (some n) now).1 nm (k + 1) := by
  by_cases hsup : now < s.suppressUntil
  · rw [micStep_suppressed s _ now hsup]
    exact ⟨rfl, Or.inl rfl⟩
  · rcases h with hIdle | ⟨hc, u, hu, hun⟩
    · rw [micStep_new s n now hIdle (by omega)]
      refine ⟨rfl, Or.inr ⟨by simp, n, by simp, hn⟩⟩
    · have hname : n.name = u.name := by rw [hn, hun]
      rw [micStep_inc s n u now hu hname (by omega)
        (by simp only [STABLE_FRAMES] at hk ⊢; omega)]
      exact ⟨rfl, Or.inr ⟨by simp; omega, u, by simpa using hu, hun⟩⟩

/-- Helper: from a low tracking state, a frame whose candidate does not
carry the tracked name replaces tracking at count 1 and fires
nothing. -/
theorem micStep_differ_low (s : MicState) (b : Note) (now : ℤ)
    (nm : String) (k : ℕ) (h : LowTracked s nm k) (hb : b.name ≠ nm) :
    (micStep s (some b) now).2 = none ∧
    LowTracked (micStep s (some b) now).1 b.name 1 := by
  by_cases hsup : now < s.suppressUntil
  · rw [micStep_suppressed s _ now hsup]
    exact ⟨rfl, Or.inl rfl⟩
  · rcases h with hIdle | ⟨hc, u, hu, hun⟩
    · rw [micStep_new s b now hIdle (by omega)]
      exact ⟨rfl, Or.inr ⟨by simp, b, by simp, rfl⟩⟩
    · have hname : b.name ≠ u.name := by rw [hun]; exact hb
      rw [micStep_differ s b u now hu hname (by omega)]
      exact ⟨rfl, Or.inr ⟨by simp, b, by simp, rfl⟩⟩

/-- C1: with stability threshold 3, three consecutive frames carrying
the same candidate, unsuppressed and cooldown-eligible at the third
frame, invoke `onNote` exactly once and reset tracking to idle; a
candidate present for only one or two consecutive frames before a
differing candidate appears never invokes `onNote`. -/
theorem stability_gate_three_frames :
    (∀ (s : MicState) (c : Note) (t1 t2 t3 : ℤ),
      s.stableNote = none →
      s.suppressUntil ≤ t1 → s.suppressUntil ≤ t2 → s.suppressUntil ≤ t3 →
      ANY_NOTE_COOLDOWN_MS ≤ t3 - s.lastFiredTime →
      (s.lastFiredNote ≠ some c.name ∨
        t3 - s.lastFiredTime > SAME_NOTE_COOLDOWN_MS) →
      (micRun s [(some c, t1), (some c, t2), (some c, t3)]).2 = [c] ∧
      (micRun s [(some c, t1), (some c, t2), (some c, t3)]).1.stableNote
        = none ∧
      (micRun s [(some c, t1), (some c, t2), (some c, t3)]).1.stableCount
        = 0) ∧
    (∀ (s : MicState) (a b : Note) (t1 t2 : ℤ),
      s.stableNote = none → b.name ≠ a.name →
      (micRun s [(some a, t1), (some b, t2)]).2 = []) ∧
    (∀ (s : MicState) (a a2 b : Note) (t1 t2 t3 : ℤ),
      s.stableNote = none → a2.name = a.name → b.name ≠ a.name →
      (micRun s [(some a, t1), (some a2, t2), (some b, t3)]).2 = []) := by
  refine ⟨fun s c t1 t2 t3 hIdle hs1 hs2 hs3 hany hsame => ?_, ?_, ?_⟩
  · rw [micRun_three_stable s c c c t1 t2 t3 hIdle rfl rfl hs1 hs2 hs3
      hany hsame]
    exact ⟨rfl, rfl, rfl⟩
  · intro s a b t1 t2 hIdle hb
    have h1 := micStep_low s a t1 a.name 0 (Or.inl hIdle) rfl
      (by simp [STABLE_FRAMES])
    have h2 := micStep_differ_low (micStep s (some a) t1).1 b t2 a.name 1
      h1.2 hb
    simp only [micRun, h1.1, h2.1, Option.toList_none, List.nil_append,
      List.append_nil]
  · intro s a a2 b t1 t2 t3 hIdle ha2 hb
    have h1 := micStep_low s a t1 a.name 0 (Or.inl hIdle) rfl
      (by simp [STABLE_FRAMES])
    have h2 := micStep_low (micStep s (some a) t1).1 a2 t2 a.name 1 h1.2 ha2
      (by simp [STABLE_FRAMES])
    have h3 := micStep_differ_low
      (micStep (micStep s (some a) t1).1 (some a2) t2).1 b t3 a.name 2
      h2.2 hb
    simp only [micRun, h1.1, h2.1, h3.1, Option.toList_none,
      List.nil_append, List.append_nil]

/-- Witness for C1 on concrete traces. -/
theorem stability_gate_three_frames_witness :
    ((micInit : MicState).stableNote = none ∧
      (micInit.suppressUntil ≤ (10000 : ℤ)) ∧
      ANY_NOTE_COOLDOWN_MS ≤ (10032 : ℤ) - micInit.lastFiredTime ∧
      micInit.lastFiredNote ≠ some "A" ∧
      (micRun micInit [(some ⟨"A", 4⟩, 10000), (some ⟨"A", 4⟩, 10016),
        (some ⟨"A", 4⟩, 10032)]).2 = [⟨"A", 4⟩]) ∧
    (micRun micInit [(some ⟨"B", 3⟩, 10000),
      (some ⟨"C", 3⟩, 10016)]).2 = [] ∧
    (micRun micInit [(some ⟨"B", 3⟩, 10000), (some ⟨"B", 5⟩, 10016),
      (some ⟨"C", 3⟩, 10032)]).2 = [] :=
  ⟨⟨rfl, by decide, by decide, by decide,
    (stability_gate_three_frames.1 micInit ⟨"A", 4⟩ 10000 10016 10032
      rfl (by norm_num [micInit]) (by norm_num [micInit]) (by decide)
      (by decide) (Or.inl (by decide))).1⟩,
    stability_gate_three_frames.2.1 micInit ⟨"B", 3⟩ ⟨"C", 3⟩ 10000 10016
      rfl (by decide),
    stability_gate_three_frames.2.2 micInit ⟨"B", 3⟩ ⟨"B", 5⟩ ⟨"C", 3⟩
      10000 10016 10032 rfl rfl (by decide)⟩

/-- Helper: after firing a note name, any candidate carrying that same
name — in any octave — is blocked within the same-note cooldown,
whatever the tracking state. -/
theorem micStep_same_name_blocked (s : MicState) (n : Note) (now : ℤ)
    (hl : s.lastFiredNote = some n.name)
    (ht : now - s.lastFiredTime ≤ SAME_NOTE_COOLDOWN_MS) :
    (micStep s (some n) now).2 = none := by
  by_cases hsup : now < s.suppressUntil
  · rw [micStep_suppressed s _ now hsup]
  · obtain ⟨lfn, lft, su, sn, sc⟩ := s
    simp only at hl ht hsup
    subst hl
    simp only [SAME_NOTE_COOLDOWN_MS] at ht
    rcases sn with _ | t
    · simp only [micStep]
      rw [if_neg hsup]
      simp [STABLE_FRAMES]
    · by_cases hname : n.name = t.name
      · simp only [micStep, if_pos hname, SAME_NOTE_COOLDOWN_MS]
        rw [if_neg hsup]
        split_ifs with h1 h2 h3
        · rfl
        · rcases h3 with h3 | h3
          · exact absurd (by rw [hname]) h3
          · exact absurd h3 (by omega)
        · rfl
        · rfl
      · rw [micStep_differ ⟨some n.name, lft, su, some t, sc⟩ n t now rfl
          hname (by simpa using hsup)]

/-- C10: stability tracking and the same-note cooldown compare
candidates by note letter only, ignoring octave: a candidate matching
the tracked letter in a different octave increments the first
candidate's support count and leaves the first-tracked note (hence its
octave) in place; a stable run of one letter across octaves fires the
first frame's octave; and after a fire, a candidate with the fired
letter in any octave stays blocked within the same-note cooldown. -/
theorem name_only_tracking_and_cooldown :
    (∀ (s : MicState) (n1 n2 : Note) (now : ℤ),
      s.stableNote = some n1 → n2.name = n1.name →
      s.suppressUntil ≤ now → s.stableCount + 1 < STABLE_FRAMES →
      micStep s (some n2) now =
        ({ s with stableCount := s.stableCount + 1 }, none)) ∧
    (∀ (s : MicState) (c : String) (o1 o2 o3 : ℤ) (t1 t2 t3 : ℤ),
      s.stableNote = none →
      s.suppressUntil ≤ t1 → s.suppressUntil ≤ t2 → s.suppressUntil ≤ t3 →
      ANY_NOTE_COOLDOWN_MS ≤ t3 - s.lastFiredTime →
      (s.lastFiredNote ≠ some c ∨
        t3 - s.lastFiredTime > SAME_NOTE_COOLDOWN_MS) →
      (micRun s [(some ⟨c, o1⟩, t1), (some ⟨c, o2⟩, t2),
        (some ⟨c, o3⟩, t3)]).2 = [⟨c, o1⟩]) ∧
    (∀ (s : MicState) (n : Note) (now : ℤ),
      s.lastFiredNote = some n.name →
      now - s.lastFiredTime ≤ SAME_NOTE_COOLDOWN_MS →
      (micStep s (some n) now).2 = none) := by
  refine ⟨fun s n1 n2 now ht hname hsu hc =>
    micStep_inc s n2 n1 now ht hname hsu hc, ?_, ?_⟩
  · intro s c o1 o2 o3 t1 t2 t3 hIdle hs1 hs2 hs3 hany hsame
    rw [micRun_three_stable s ⟨c, o1⟩ ⟨c, o2⟩ ⟨c, o3⟩ t1 t2 t3 hIdle rfl rfl
      hs1 hs2 hs3 hany hsame]
  · intro s n now hl ht
    exact micStep_same_name_blocked s n now hl ht

/-- Witness for C10 on concrete inputs: tracked C4, candidate C5
increments; a C4/C5/C3 run fires C4; candidate C5 blocked after a
fired C. -/
theorem name_only_tracking_and_cooldown_witness :
    micStep { micInit with stableNote := some ⟨"C", 4⟩, stableCount := 1 }
      (some ⟨"C", 5⟩) 10000 =
      ({ micInit with stableNote := some ⟨"C", 4⟩, stableCount := 2 },
        none) ∧
    (micRun micInit [(some ⟨"C", 4⟩, 10000), (some ⟨"C", 5⟩, 10016),
      (some ⟨"C", 3⟩, 10032)]).2 = [⟨"C", 4⟩] ∧
    (micStep ⟨some "C", 10032, 0, some ⟨"C", 5⟩, 2⟩
      (some ⟨"C", 5⟩) 10200).2 = none :=
  ⟨name_only_tracking_and_cooldown.1
      { micInit with stableNote := some ⟨"C", 4⟩, stableCount := 1 }
      ⟨"C", 4⟩ ⟨"C", 5⟩ 10000 rfl rfl (by norm_num [micInit])
      (by decide),
    name_only_tracking_and_cooldown.2.1 micInit "C" 4 5 3 10000 10016 10032
      rfl (by norm_num [micInit]) (by norm_num [micInit]) (by decide)
      (by decide) (Or.inl (by decide)),
    name_only_tracking_and_cooldown.2.2
      ⟨some "C", 10032, 0, some ⟨"C", 5⟩, 2⟩
      ⟨"C", 5⟩ 10200 (by decide) (by decide)⟩

/-- Helper: running the loop over concatenated frame lists composes. -/
theorem micRun_append (s : MicState) (l1 l2 : List (Option Note × ℤ)) :
    micRun s (l1 ++ l2) =
      ((micRun (micRun s l1).1 l2).1,
        (micRun s l1).2 ++ (micRun (micRun s l1).1 l2).2) := by
  induction l1 generalizing s with
  | nil => simp [micRun]
  | cons f rest ih =>
    simp only [List.cons_append, micRun, List.append_eq]
    rw [ih]
    simp [List.append_assoc]

/-- C2 counterexample to the original claim: under the sustained-tone
schedule, the code does not stay silent for tones of arbitrary
duration — the 100-frame (≈1.6 s) sustained A4 trace fires a second
`{A, 4}` event once the 1500 ms same-note cooldown since the first
fire has elapsed. -/
theorem sustained_tone_refires_counterexample :
    (micRun micInit (a4Schedule 100)).2 = [⟨"A", 4⟩, ⟨"A", 4⟩] := by
  decide

/-- C2 (amended): the sustained A4 tone fires exactly one
`{name: 'A', octave: 4}` event, at 10032, i.e. 32 ms < 1 s after the
tone starts, and fires nothing further while the tone has lasted less
than the 1500 ms same-note cooldown since that fire (traces of up to
96 frames); once the cooldown elapses the tone re-fires (second event
in the 100-frame trace). -/
theorem sustained_tone_fires_once_per_cooldown :
    (∀ m : ℕ, m ≤ 93 →
      (micRun micInit (a4Schedule (3 + m))).2 = [⟨"A", 4⟩] ∧
      (micRun micInit (a4Schedule (3 + m))).1.lastFiredTime = 10032 ∧
      (10032 : ℤ) - 10000 < 1000) ∧
    (micRun micInit (a4Schedule 100)).2.length = 2 := by
  constructor
  · intro m hm
    have hsplit : a4Schedule (3 + m) =
        a4Schedule 3 ++ (List.range m).map
          (fun k => (some ⟨"A", 4⟩, 10000 + 16 * ((3 + k : ℕ) : ℤ))) := by
      simp only [a4Schedule, List.range_add, List.map_append, List.map_map]
      congr 1
    have h3 : micRun micInit (a4Schedule 3) =
        (⟨some "A", 10032, 0, none, 0⟩, [⟨"A", 4⟩]) := by decide
    have hb := micRun_blocked "A"
      ((List.range m).map
        (fun k => (some ⟨"A", 4⟩, 10000 + 16 * ((3 + k : ℕ) : ℤ))))
      ⟨some "A", 10032, 0, none, 0⟩ rfl (Or.inl rfl)
      (by
        intro f hf
        simp only [List.mem_map, List.mem_range] at hf
        obtain ⟨k, hk, hfk⟩ := hf
        subst hfk
        refine ⟨?_, ?_⟩
        · intro n hn
          simp only [Prod.mk.injEq, Option.some_inj] at hn
          rw [← hn]
        · simp only [SAME_NOTE_COOLDOWN_MS]
          push_cast
          omega)
    rw [hsplit, micRun_append, h3]
    simp only []
    rw [hb.1]
    exact ⟨by simp, by rw [hb.2.2], by omega⟩
  · decide

/-- Witness for C2 at a concrete trace length (50 frames ≈ 0.8 s). -/
theorem sustained_tone_fires_once_witness :
    (47 : ℕ) ≤ 93 ∧
    (micRun micInit (a4Schedule (3 + 47))).2 = [⟨"A", 4⟩] ∧
    (micRun micInit (a4Schedule (3 + 47))).1.lastFiredTime = 10032 :=
  ⟨by decide,
    (sustained_tone_fires_once_per_cooldown.1 47 (by decide)).1,
    (sustained_tone_fires_once_per_cooldown.1 47 (by decide)).2.1⟩

end MicUtils

namespace MicUtilsMpm

/-- Helper: the tracking update touches only `stableNote` and
`stableCount`. -/
theorem mpmTrack_fields (s : MpmState) (note : Option Note) :
    (mpmTrack s note).lastFiredNote = s.lastFiredNote ∧
    (mpmTrack s note).lastFiredTime = s.lastFiredTime ∧
    (mpmTrack s note).suppressUntil = s.suppressUntil ∧
    (mpmTrack s note).silenceFrames = s.silenceFrames := by
  rcases note with _ | n <;> rcases hsn : s.stableNote with _ | t <;>
    simp only [mpmTrack, hsn] <;> try simp
  by_cases hn : n.name = t.name
  · rw [if_pos hn]; simp
  · rw [if_neg hn]; simp

/-- Helper: the fire stage never touches the silence counter. -/
theorem mpmFire_silenceFrames (s1 : MpmState) (now : ℤ) :
    (mpmFire s1 now).1.silenceFrames = s1.silenceFrames := by
  rcases hsn : s1.stableNote with _ | t <;> simp only [mpmFire, hsn] <;>
    split_ifs <;> rfl

/-- Helper: a quiet frame (RMS below 1.5x the threshold) always
increments the silence counter, whatever else the frame does. -/
theorem mpmStep_silence_inc (thr : ℚ) (s : MpmState) (rms : ℚ)
    (note : Option Note) (now : ℤ) (h : rms < thr * 1.5) :
    (mpmStep thr s rms note now).1.silenceFrames = s.silenceFrames + 1 := by
  rw [mpmStep, mpmFire_silenceFrames,
    (mpmTrack_fields (silenceUpdate thr s rms) note).2.2.2]
  simp only [silenceUpdate, if_pos h]
  split_ifs <;> rfl

/-- Helper: a quiet idle frame below the silence-gap count only
increments the counter. -/
theorem mpmStep_silent_low (thr : ℚ) (s : MpmState) (rms : ℚ) (now : ℤ)
    (h : rms < thr * 1.5) (hIdle : s.stableNote = none)
    (hsu : s.suppressUntil ≤ now)
    (hlow : s.silenceFrames + 1 < SILENCE_GAP_FRAMES) :
    mpmStep thr s rms none now =
      ({ s with silenceFrames := s.silenceFrames + 1 }, none) := by
  obtain ⟨lfn, lft, su, sn, sc, sf⟩ := s
  simp only at hIdle hsu hlow
  subst hIdle
  rw [mpmStep, silenceUpdate, if_pos h,
    if_neg (by simp only [SILENCE_GAP_FRAMES] at hlow ⊢; omega)]
  simp only [mpmTrack, mpmFire]
  rw [if_neg (by omega)]

/-- Helper: a quiet idle frame reaching the silence-gap count clears
`lastFiredNote` (and fires nothing). -/
theorem mpmStep_silent_gap (thr : ℚ) (s : MpmState) (rms : ℚ) (now : ℤ)
    (h : rms < thr * 1.5) (hIdle : s.stableNote = none)
    (hsu : s.suppressUntil ≤ now)
    (hgap : SILENCE_GAP_FRAMES ≤ s.silenceFrames + 1) :
    mpmStep thr s rms none now =
      ({ s with silenceFrames := s.silenceFrames + 1,
                lastFiredNote := none }, none) := by
  obtain ⟨lfn, lft, su, sn, sc, sf⟩ := s
  simp only at hIdle hsu hgap
  subst hIdle
  rw [mpmStep, silenceUpdate, if_pos h,
    if_pos (by simp only [SILENCE_GAP_FRAMES] at hgap ⊢; omega)]
  simp only [mpmTrack, mpmFire]
  rw [if_neg (by omega)]

/-- Helper: a loud frame with a candidate while nothing is tracked
resets the silence counter, starts tracking at count 1 and fires
nothing (stability threshold is 2). -/
theorem mpmStep_loud_new (thr : ℚ) (s : MpmState) (rms : ℚ) (n : Note)
    (now : ℤ) (h : ¬rms < thr * 1.5) (hIdle : s.stableNote = none)
    (hsu : s.suppressUntil ≤ now) :
    mpmStep thr s rms (some n) now =
      ({ s with silenceFrames := 0, stableNote := some n,
                stableCount := 1 }, none) := by
  obtain ⟨lfn, lft, su, sn, sc, sf⟩ := s
  simp only at hIdle hsu
  subst hIdle
  rw [mpmStep, silenceUpdate, if_neg h]
  simp only [mpmTrack, mpmFire]
  rw [if_neg (by omega)]
  simp [STABLE_FRAMES]

/-- Helper: a loud frame matching the tracked name, reaching the
2-frame stability threshold with both cooldowns passed, fires. -/
theorem mpmStep_loud_fire (thr : ℚ) (s : MpmState) (rms : ℚ) (n t : Note)
    (now : ℤ) (h : ¬rms < thr * 1.5) (ht : s.stableNote = some t)
    (hname : n.name = t.name) (hsu : s.suppressUntil ≤ now)
    (hc : STABLE_FRAMES ≤ s.stableCount + 1)
    (hany : ANY_NOTE_COOLDOWN_MS ≤ now - s.lastFiredTime)
    (hsame : s.lastFiredNote ≠ some t.name ∨
      now - s.lastFiredTime > SAME_NOTE_COOLDOWN_MS) :
    mpmStep thr s rms (some n) now =
      ({ s with silenceFrames := 0, lastFiredNote := some t.name,
                lastFiredTime := now, stableNote := none,
                stableCount := 0 }, some t) := by
  obtain ⟨lfn, lft, su, sn, sc, sf⟩ := s
  simp only at ht hsu hc hany hsame
  subst ht
  rw [mpmStep, silenceUpdate, if_neg h]
  simp only [mpmTrack, if_pos hname, mpmFire]
  rw [if_neg (by omega)]
  simp only [STABLE_FRAMES, ANY_NOTE_COOLDOWN_MS, SAME_NOTE_COOLDOWN_MS]
    at hc hany hsame ⊢
  rw [if_pos (by omega), if_neg (by omega), if_pos hsame]

end MicUtilsMpm

namespace MicUtilsMpm

/-- Helper: a loud frame (no silence-gap clearing) whose candidate (if
any) carries the just-fired name, with a compatible tracking state,
inside the same-note cooldown, fires nothing and leaves the firing
bookkeeping unchanged. -/
theorem mpmStep_blocked (thr : ℚ) (s : MpmState) (rms : ℚ)
    (note : Option Note) (now : ℤ) (nm : String)
    (h : ¬rms < thr * 1.5) (hl : s.lastFiredNote = some nm)
    (hs : s.stableNote = none ∨ ∃ u, s.stableNote = some u ∧ u.name = nm)
    (hn : ∀ n, note = some n → n.name = nm)
    (ht : now - s.lastFiredTime ≤ SAME_NOTE_COOLDOWN_MS) :
    (mpmStep thr s rms note now).2 = none ∧
    (mpmStep thr s rms note now).1.lastFiredNote = some nm ∧
    (mpmStep thr s rms note now).1.lastFiredTime = s.lastFiredTime ∧
    ((mpmStep thr s rms note now).1.stableNote = none ∨
      ∃ u, (mpmStep thr s rms note now).1.stableNote = some u ∧
        u.name = nm) := by
  obtain ⟨lfn, lft, su, sn, sc, sf⟩ := s
  simp only at hl ht hs ⊢
  subst hl
  simp only [SAME_NOTE_COOLDOWN_MS] at ht
  simp only [mpmStep, silenceUpdate, if_neg h]
  rcases note with _ | n
  · rcases sn with _ | t
    · simp only [mpmTrack, mpmFire]
      split_ifs <;> simp
    · rcases hs with hs | ⟨u, hu, hun⟩
      · exact absurd hs (by simp)
      · have htu : t.name = nm := by
          simp only [Option.some_inj] at hu; rw [hu]; exact hun
        simp only [mpmTrack, mpmFire, SAME_NOTE_COOLDOWN_MS]
        split_ifs with h1 h2 h3 h4
        · simp
        · simp [htu]
        · rcases h4 with h4 | h4
          · exact absurd (by rw [htu]) h4
          · exact absurd h4 (by omega)
        · exact ⟨rfl, rfl, rfl, Or.inr ⟨t, rfl, htu⟩⟩
        · exact ⟨rfl, rfl, rfl, Or.inr ⟨t, rfl, htu⟩⟩
  · have hnn : n.name = nm := hn n rfl
    rcases sn with _ | t
    · simp only [mpmTrack, mpmFire, SAME_NOTE_COOLDOWN_MS]
      split_ifs with h1 h2 h3 h4
      · simp
      · simp [hnn]
      · rcases h4 with h4 | h4
        · exact absurd (by rw [hnn]) h4
        · exact absurd h4 (by omega)
      · exact ⟨rfl, rfl, rfl, Or.inr ⟨n, rfl, hnn⟩⟩
      · exact ⟨rfl, rfl, rfl, Or.inr ⟨n, rfl, hnn⟩⟩
    · rcases hs with hs | ⟨u, hu, hun⟩
      · exact absurd hs (by simp)
      · have htu : t.name = nm := by
          simp only [Option.some_inj] at hu; rw [hu]; exact hun
        have hmatch : n.name = t.name := by rw [hnn, htu]
        simp only [mpmTrack, if_pos hmatch, mpmFire, SAME_NOTE_COOLDOWN_MS]
        split_ifs with h1 h2 h3 h4
        · simp
        · simp [htu]
        · rcases h4 with h4 | h4
          · exact absurd (by rw [htu]) h4
          · exact absurd h4 (by omega)
        · exact ⟨rfl, rfl, rfl, Or.inr ⟨t, rfl, htu⟩⟩
        · exact ⟨rfl, rfl, rfl, Or.inr ⟨t, rfl, htu⟩⟩

/-- Helper: a run of loud frames whose candidates (when present) carry
the just-fired name, all within the same-note cooldown and with no
intervening silence gap, fires nothing. -/
theorem mpmRun_blocked (thr : ℚ) (nm : String) :
    ∀ (frames : List (ℚ × Option Note × ℤ)) (s : MpmState),
    s.lastFiredNote = some nm →
    (s.stableNote = none ∨ ∃ u, s.stableNote = some u ∧ u.name = nm) →
    (∀ f ∈ frames, ¬f.1 < thr * 1.5 ∧
      (∀ n, f.2.1 = some n → n.name = nm) ∧
      f.2.2 - s.lastFiredTime ≤ SAME_NOTE_COOLDOWN_MS) →
    (mpmRun thr s frames).2 = [] ∧
    (mpmRun thr s frames).1.lastFiredNote = some nm ∧
    (mpmRun thr s frames).1.lastFiredTime = s.lastFiredTime
  | [], s, hl, hs, _ => by simp [mpmRun, hl]
  | f :: rest, s, hl, hs, hf => by
    have hhead := hf f (by simp)
    have hb := mpmStep_blocked thr s f.1 f.2.1 f.2.2 nm hhead.1 hl hs
      hhead.2.1 hhead.2.2
    have htime : (mpmStep thr s f.1 f.2.1 f.2.2).1.lastFiredTime =
        s.lastFiredTime := hb.2.2.1
    have ih := mpmRun_blocked thr nm rest
      (mpmStep thr s f.1 f.2.1 f.2.2).1 hb.2.1 hb.2.2.2
      (by
        intro g hg
        refine ⟨(hf g (by simp [hg])).1, (hf g (by simp [hg])).2.1, ?_⟩
        rw [htime]
        exact (hf g (by simp [hg])).2.2)
    simp only [mpmRun]
    refine ⟨?_, ih.2.1, by rw [ih.2.2, htime]⟩
    rw [hb.1]
    simpa using ih.1

end MicUtilsMpm

namespace MicUtilsMpm

/-- C5: in every frame with RMS below 1.5x the preset's minimum
threshold the gate increments its silence-frame counter; once that
counter reaches `SILENCE_GAP_FRAMES` it clears `lastFiredNote`, so the
same note fires again immediately (4 quiet frames + 2 stable frames,
96 ms after a fire, well inside the 700 ms same-note cooldown);
conversely, re-presenting the just-fired note with no intervening
silence gap fires nothing while inside the cooldown. -/
theorem silence_gap_resets_same_note_cooldown :
    (∀ (thr : ℚ) (s : MpmState) (rms : ℚ) (note : Option Note) (now : ℤ),
      rms < thr * 1.5 →
      (mpmStep thr s rms note now).1.silenceFrames =
        s.silenceFrames + 1) ∧
    (∀ (thr : ℚ) (s : MpmState) (rms : ℚ) (now : ℤ),
      rms < thr * 1.5 → s.stableNote = none → s.suppressUntil ≤ now →
      SILENCE_GAP_FRAMES ≤ s.silenceFrames + 1 →
      (mpmStep thr s rms none now).1.lastFiredNote = none ∧
      (mpmStep thr s rms none now).2 = none) ∧
    (∀ thr : ℚ, 0 < thr →
      mpmRun thr ⟨some "C", 2000, 0, none, 0, 0⟩
        [(0, none, 2016), (0, none, 2032), (0, none, 2048),
          (0, none, 2064), (2 * thr, some ⟨"C", 4⟩, 2080),
          (2 * thr, some ⟨"C", 4⟩, 2096)] =
        (⟨some "C", 2096, 0, none, 0, 0⟩, [⟨"C", 4⟩]) ∧
      (2096 : ℤ) - 2000 ≤ SAME_NOTE_COOLDOWN_MS) ∧
    (∀ (thr : ℚ) (frames : List (ℚ × Option Note × ℤ)) (s : MpmState)
      (nm : String),
      s.lastFiredNote = some nm →
      (s.stableNote = none ∨ ∃ u, s.stableNote = some u ∧ u.name = nm) →
      (∀ f ∈ frames, ¬f.1 < thr * 1.5 ∧
        (∀ n, f.2.1 = some n → n.name = nm) ∧
        f.2.2 - s.lastFiredTime ≤ SAME_NOTE_COOLDOWN_MS) →
      (mpmRun thr s frames).2 = []) := by
  refine ⟨mpmStep_silence_inc, ?_, ?_, ?_⟩
  · intro thr s rms now h hIdle hsu hgap
    rw [mpmStep_silent_gap thr s rms now h hIdle hsu hgap]
    exact ⟨rfl, rfl⟩
  · intro thr hthr
    have hq : (0 : ℚ) < thr * 1.5 := by nlinarith
    have hq2 : ¬(2 * thr < thr * 1.5) := by nlinarith
    have e1 : mpmStep thr ⟨some "C", 2000, 0, none, 0, 0⟩ 0 none 2016 =
        (⟨some "C", 2000, 0, none, 0, 1⟩, none) :=
      mpmStep_silent_low thr _ 0 2016 hq rfl (by norm_num)
        (by simp [SILENCE_GAP_FRAMES])
    have e2 : mpmStep thr ⟨some "C", 2000, 0, none, 0, 1⟩ 0 none 2032 =
        (⟨some "C", 2000, 0, none, 0, 2⟩, none) :=
      mpmStep_silent_low thr _ 0 2032 hq rfl (by norm_num)
        (by simp [SILENCE_GAP_FRAMES])
    have e3 : mpmStep thr ⟨some "C", 2000, 0, none, 0, 2⟩ 0 none 2048 =
        (⟨some "C", 2000, 0, none, 0, 3⟩, none) :=
      mpmStep_silent_low thr _ 0 2048 hq rfl (by norm_num)
        (by simp [SILENCE_GAP_FRAMES])
    have e4 : mpmStep thr ⟨some "C", 2000, 0, none, 0, 3⟩ 0 none 2064 =
        (⟨none, 2000, 0, none, 0, 4⟩, none) :=
      mpmStep_silent_gap thr _ 0 2064 hq rfl (by norm_num)
        (by simp [SILENCE_GAP_FRAMES])
    have e5 : mpmStep thr ⟨none, 2000, 0, none, 0, 4⟩ (2 * thr)
        (some ⟨"C", 4⟩) 2080 =
        (⟨none, 2000, 0, some ⟨"C", 4⟩, 1, 0⟩, none) :=
      mpmStep_loud_new thr _ (2 * thr) ⟨"C", 4⟩ 2080 hq2 rfl (by norm_num)
    have e6 : mpmStep thr ⟨none, 2000, 0, some ⟨"C", 4⟩, 1, 0⟩ (2 * thr)
        (some ⟨"C", 4⟩) 2096 =
        (⟨some "C", 2096, 0, none, 0, 0⟩, some ⟨"C", 4⟩) :=
      mpmStep_loud_fire thr _ (2 * thr) ⟨"C", 4⟩ ⟨"C", 4⟩ 2096 hq2 rfl rfl
        (by norm_num) (by simp [STABLE_FRAMES])
        (by simp [ANY_NOTE_COOLDOWN_MS])
        (Or.inl (by simp))
    refine ⟨?_, by simp [SAME_NOTE_COOLDOWN_MS]⟩
    simp only [mpmRun, e1, e2, e3, e4, e5, e6, Option.toList_none,
      Option.toList_some, List.nil_append, List.append_nil]
  · intro thr frames s nm hl hs hf
    exact (mpmRun_blocked thr nm frames s hl hs hf).1

/-- Witness for C5 at the `normal` preset threshold 0.006. -/
theorem silence_gap_resets_same_note_cooldown_witness :
    ((0 : ℚ) < 6 / 1000 * 1.5 ∧
      (mpmStep (6 / 1000) ⟨some "C", 2000, 0, none, 0, 0⟩ 0 none
        2016).1.silenceFrames = 1) ∧
    ((0 : ℚ) < 6 / 1000 ∧
      mpmRun (6 / 1000) ⟨some "C", 2000, 0, none, 0, 0⟩
        [(0, none, 2016), (0, none, 2032), (0, none, 2048),
          (0, none, 2064), (2 * (6 / 1000), some ⟨"C", 4⟩, 2080),
          (2 * (6 / 1000), some ⟨"C", 4⟩, 2096)] =
        (⟨some "C", 2096, 0, none, 0, 0⟩, [⟨"C", 4⟩])) ∧
    (mpmRun (6 / 1000) ⟨some "C", 2096, 0, none, 0, 0⟩
      [(2 * (6 / 1000), some ⟨"C", 4⟩, 2112),
        (2 * (6 / 1000), some ⟨"C", 4⟩, 2128),
        (2 * (6 / 1000), some ⟨"C", 4⟩, 2144)]).2 = [] :=
  ⟨⟨by norm_num,
      silence_gap_resets_same_note_cooldown.1 (6 / 1000)
        ⟨some "C", 2000, 0, none, 0, 0⟩ 0 none 2016 (by norm_num)⟩,
    ⟨by norm_num,
      (silence_gap_resets_same_note_cooldown.2.2.1 (6 / 1000)
        (by norm_num)).1⟩,
    silence_gap_resets_same_note_cooldown.2.2.2 (6 / 1000) _
      ⟨some "C", 2096, 0, none, 0, 0⟩ "C" rfl (Or.inl rfl)
      (by
        intro f hf
        fin_cases hf <;>
          exact ⟨by norm_num, fun n hn => by rw [← Option.some.inj hn],
            by simp [SAME_NOTE_COOLDOWN_MS]⟩)⟩

end MicUtilsMpm

/-- Helper: folding the squared-sample accumulator from any seed. -/
theorem foldl_sq_shift (xs : List ℝ) (a0 : ℝ) :
    xs.foldl (fun sum x => sum + x * x) a0 =
      a0 + xs.foldl (fun sum x => sum + x * x) 0 := by
  induction xs generalizing a0 with
  | nil => simp
  | cons y tl ih =>
    simp only [List.foldl_cons]
    rw [ih (a0 + y * y), ih (0 + y * y)]
    ring

/-- Helper: quarter-period sine samples repeat with period 4. -/
theorem sin_quarter_period (m r : ℕ) :
    Real.sin (2 * Real.pi * ((4 * m + r : ℕ) : ℝ) / 4) =
      Real.sin (2 * Real.pi * (r : ℝ) / 4) := by
  have harg : 2 * Real.pi * ((4 * m + r : ℕ) : ℝ) / 4 =
      2 * Real.pi * (r : ℝ) / 4 + (m : ℤ) * (2 * Real.pi) := by
    push_cast
    ring
  rw [harg, Real.sin_add_int_mul_two_pi]

/-- Helper: the sum of squares over each whole period of `sineBuf`
contributes exactly 2. -/
theorem sineBuf_sumSq (m : ℕ) :
    (sineBuf (4 * m)).foldl (fun sum x => sum + x * x) 0 = 2 * (m : ℝ) := by
  induction m with
  | zero => simp [sineBuf]
  | succ k ih =>
    have hsplit : sineBuf (4 * (k + 1)) =
        sineBuf (4 * k) ++
          [Real.sin (2 * Real.pi * ((4 * k + 0 : ℕ) : ℝ) / 4),
            Real.sin (2 * Real.pi * ((4 * k + 1 : ℕ) : ℝ) / 4),
            Real.sin (2 * Real.pi * ((4 * k + 2 : ℕ) : ℝ) / 4),
            Real.sin (2 * Real.pi * ((4 * k + 3 : ℕ) : ℝ) / 4)] := by
      rw [show 4 * (k + 1) = 4 * k + 4 by ring]
      simp only [sineBuf, List.range_add, List.map_append, List.map_map]
      congr 1
    have h0 : Real.sin (2 * Real.pi * ((4 * k + 0 : ℕ) : ℝ) / 4) = 0 := by
      rw [sin_quarter_period]
      norm_num
    have h1 : Real.sin (2 * Real.pi * ((4 * k + 1 : ℕ) : ℝ) / 4) = 1 := by
      rw [sin_quarter_period,
        show 2 * Real.pi * ((1 : ℕ) : ℝ) / 4 = Real.pi / 2 by
          push_cast; ring,
        Real.sin_pi_div_two]
    have h2 : Real.sin (2 * Real.pi * ((4 * k + 2 : ℕ) : ℝ) / 4) = 0 := by
      rw [sin_quarter_period,
        show 2 * Real.pi * ((2 : ℕ) : ℝ) / 4 = Real.pi by push_cast; ring,
        Real.sin_pi]
    have h3 : Real.sin (2 * Real.pi * ((4 * k + 3 : ℕ) : ℝ) / 4) = -1 := by
      rw [sin_quarter_period,
        show 2 * Real.pi * ((3 : ℕ) : ℝ) / 4 = Real.pi / 2 + Real.pi by
          push_cast; ring,
        Real.sin_add_pi, Real.sin_pi_div_two]
    rw [hsplit, List.foldl_append, ih]
    simp only [List.foldl_cons, List.foldl_nil, h0, h1, h2, h3]
    push_cast
    ring

/-- C7 counterexample to the original claim: the empty buffer is
all-zero (vacuously) and has a length, yet `getRms` does not return 0
there — the source computes `Math.sqrt(0/0)`, which is `NaN`
(modelled as `none`), so the "any length" part of the claim fails at
length 0. -/
theorem getRms_empty_nan_counterexample :
    (∀ x ∈ ([] : List ℝ), x = (0 : ℝ)) ∧
    getRms ([] : List ℝ) = none ∧
    getRms ([] : List ℝ) ≠ some 0 := by
  refine ⟨by simp, rfl, ?_⟩
  rw [show getRms ([] : List ℝ) = none from rfl]
  simp

/-- C7 (amended): `getRms` returns exactly 0 on an all-zero buffer of
any nonzero length (the empty buffer yields `NaN`, not 0), 0.5 on a
nonempty buffer of constant samples 0.5, and exactly `1/√2` on a
unit-amplitude sine-wave buffer (sampled over whole periods). -/
theorem getRms_values :
    (∀ buf : List ℝ, buf ≠ [] → (∀ x ∈ buf, x = 0) →
      getRms buf = some 0) ∧
    (∀ buf : List ℝ, buf ≠ [] → (∀ x ∈ buf, x = 1 / 2) →
      getRms buf = some (1 / 2)) ∧
    (∀ m : ℕ, 0 < m →
      getRms (sineBuf (4 * m)) = some (Real.sqrt 2)⁻¹) := by
  have hzero : ∀ buf : List ℝ, (∀ x ∈ buf, x = 0) →
      buf.foldl (fun sum x => sum + x * x) 0 = 0 := fun buf => by
    induction buf with
    | nil =>
      intro hall
      rfl
    | cons a tl ih =>
      intro hall
      have hx : a = 0 := hall a (by simp)
      simp only [List.foldl_cons, hx]
      rw [show (0 : ℝ) + 0 * 0 = 0 by ring]
      refine ih fun z hz => hall z ?_
      simp [hz]
  have hhalf : ∀ buf : List ℝ, (∀ x ∈ buf, x = 1 / 2) →
      buf.foldl (fun sum x => sum + x * x) 0 =
        (buf.length : ℝ) * (1 / 4) := fun buf => by
    induction buf with
    | nil =>
      intro hall
      simp
    | cons a tl ih =>
      intro hall
      have hx : a = 1 / 2 := hall a (by simp)
      simp only [List.foldl_cons]
      rw [foldl_sq_shift tl (0 + a * a),
        ih fun z hz => hall z (by simp [hz])]
      rw [hx, List.length_cons]
      push_cast
      ring
  refine ⟨fun buf hne h => ?_, ?_, ?_⟩
  · have h0 : buf.length ≠ 0 := fun hl => hne (List.length_eq_zero.mp hl)
    rw [getRms, if_neg h0, hzero buf h, zero_div, Real.sqrt_zero]
  · intro buf hne h
    have h0 : buf.length ≠ 0 := fun hl => hne (List.length_eq_zero.mp hl)
    have hlen : (buf.length : ℝ) ≠ 0 := Nat.cast_ne_zero.mpr h0
    rw [getRms, if_neg h0, hhalf buf h, mul_comm, mul_div_assoc,
      div_self hlen, mul_one,
      show (1 / 4 : ℝ) = (1 / 2) ^ 2 by norm_num,
      Real.sqrt_sq one_half_pos.le]
  · intro m hm
    have hlen : (sineBuf (4 * m)).length = 4 * m := by
      simp [sineBuf]
    have hne0 : (sineBuf (4 * m)).length ≠ 0 := by
      rw [hlen]
      omega
    rw [getRms, if_neg hne0, sineBuf_sumSq, hlen,
      show ((4 * m : ℕ) : ℝ) = 4 * (m : ℝ) by push_cast; ring]
    have hm0 : ((m : ℝ)) ≠ 0 := by
      exact_mod_cast Nat.pos_iff_ne_zero.mp hm
    rw [show (2 : ℝ) * m / (4 * m) = 2⁻¹ by field_simp; ring,
      Real.sqrt_inv]

/-- Witness for C7 at concrete buffers. -/
theorem getRms_values_witness :
    ([(0 : ℝ), 0] ≠ []) ∧ getRms [0, 0] = some 0 ∧
    getRms [1 / 2, 1 / 2, 1 / 2] = some (1 / 2) ∧
    getRms (sineBuf (4 * 1)) = some (Real.sqrt 2)⁻¹ :=
  ⟨by simp, getRms_values.1 [0, 0] (by simp) (by simp),
    getRms_values.2.1 [1 / 2, 1 / 2, 1 / 2] (by simp) (by simp),
    getRms_values.2.2 1 (by norm_num)⟩

section SnapLemmas

variable {α : Type} [LinearOrderedField α] [FloorRing α]

/-- Helper: one search step never increases the best distance. -/
theorem snapStep_snd_le (m : α) (b : Option ℤ × WithTop α) (j : ℤ) :
    (snapStep m b j).2 ≤ b.2 := by
  unfold snapStep
  split_ifs with h1 h2
  · exact le_refl _
  · exact le_of_lt h2
  · exact le_refl _

/-- Helper: the whole fold never increases the best distance. -/
theorem snapFoldl_snd_le (m : α) (l : List ℤ) (b : Option ℤ × WithTop α) :
    (l.foldl (snapStep m) b).2 ≤ b.2 := by
  induction l generalizing b with
  | nil => exact le_refl _
  | cons j rest ih =>
    simp only [List.foldl_cons]
    exact le_trans (ih (snapStep m b j)) (snapStep_snd_le m b j)

/-- Helper: after processing a natural candidate, the best distance is
at most that candidate's distance. -/
theorem snapFoldl_le_of_mem (m : α) (l : List ℤ) (b : Option ℤ × WithTop α)
    (j : ℤ) (hj : j ∈ l) (hnat : IsNaturalMidi j) :
    (l.foldl (snapStep m) b).2 ≤ (↑|m - (j : α)| : WithTop α) := by
  induction l generalizing b with
  | nil => exact absurd hj (List.not_mem_nil j)
  | cons a rest ih =>
    simp only [List.foldl_cons]
    rcases List.mem_cons.mp hj with hj | hj
    · subst hj
      refine le_trans (snapFoldl_snd_le m rest (snapStep m b j)) ?_
      unfold snapStep
      rw [if_neg (by rw [hnat]; exact Bool.false_ne_true)]
      split_ifs with h2
      · exact le_refl _
      · exact le_of_not_lt h2
    · exact ih (snapStep m b a) hj

/-- The search-state invariant: either nothing found yet (distance
`Infinity`), or the best candidate is a natural at its own distance. -/
def SnapInv (m : α) (b : Option ℤ × WithTop α) : Prop :=
  (b.1 = none ∧ b.2 = ⊤) ∨
    ∃ k : ℤ, b.1 = some k ∧ IsNaturalMidi k ∧
      b.2 = (↑|m - (k : α)| : WithTop α)

/-- Helper: each search step preserves the invariant. -/
theorem snapStep_inv (m : α) (b : Option ℤ × WithTop α) (j : ℤ)
    (h : SnapInv m b) : SnapInv m (snapStep m b j) := by
  unfold snapStep
  split_ifs with h1 h2
  · exact h
  · exact Or.inr ⟨j, rfl, by
      simp only [IsNaturalMidi]
      exact Bool.not_eq_true _ ▸ (by simpa using h1), rfl⟩
  · exact h

/-- Helper: the whole fold preserves the invariant. -/
theorem snapFoldl_inv (m : α) (l : List ℤ) (b : Option ℤ × WithTop α)
    (h : SnapInv m b) : SnapInv m (l.foldl (snapStep m) b) := by
  induction l generalizing b with
  | nil => exact h
  | cons a rest ih =>
    simp only [List.foldl_cons]
    exact ih (snapStep m b a) (snapStep_inv m b a h)

/-- Helper: when every natural integer MIDI value lies farther than the
snap tolerance, the search rejects. -/
theorem snapToNatural_none_of_far (m tol : α)
    (hfar : ∀ n : ℤ, IsNaturalMidi n → tol < |m - (n : α)|) :
    snapToNatural m tol = none := by
  simp only [snapToNatural]
  have hinv := snapFoldl_inv m
    [jsRound m - 2, jsRound m - 1, jsRound m, jsRound m + 1, jsRound m + 2]
    (none, ⊤) (Or.inl ⟨rfl, rfl⟩)
  rcases hinv with ⟨h1, _⟩ | ⟨k, hk1, hk2, hk3⟩
  · rw [h1]
  · rw [hk1, hk3]
    show (if (↑tol : WithTop α) < (↑|m - (k : α)| : WithTop α) then none
      else some (⟨noteName k, Int.fdiv k 12 - 1⟩ : Note)) = none
    rw [if_pos (by exact_mod_cast hfar k hk2)]

/-- Helper: a natural integer MIDI value strictly within half a
semitone of `midiFloat` wins the search whenever the tolerance is at
least one half. -/
theorem snapToNatural_near (m : α) (n : ℤ) (tol : α)
    (hnat : IsNaturalMidi n) (hnear : |m - (n : α)| < 1 / 2)
    (htol : 1 / 2 ≤ tol) :
    snapToNatural m tol = some ⟨noteName n, Int.fdiv n 12 - 1⟩ := by
  have habs := abs_lt.mp hnear
  have hc : jsRound m = n := by
    rw [jsRound, Int.floor_eq_iff]
    constructor
    · linarith [habs.1]
    · push_cast
      linarith [habs.2]
  simp only [snapToNatural, hc]
  have hmem : n ∈ [n - 2, n - 1, n, n + 1, n + 2] := by simp
  have hmin := snapFoldl_le_of_mem m [n - 2, n - 1, n, n + 1, n + 2]
    (none, ⊤) n hmem hnat
  have hinv := snapFoldl_inv m [n - 2, n - 1, n, n + 1, n + 2]
    (none, ⊤) (Or.inl ⟨rfl, rfl⟩)
  rcases hinv with ⟨h1, h2⟩ | ⟨k, hk1, hk2, hk3⟩
  · rw [h2] at hmin
    exact absurd hmin (by simp)
  · have hkdist : |m - (k : α)| ≤ |m - (n : α)| := by
      rw [hk3] at hmin
      exact_mod_cast hmin
    have hkn : k = n := by
      by_contra hne
      have hint : (1 : ℤ) ≤ |k - n| := Int.one_le_abs (sub_ne_zero.mpr hne)
      have hcast : (1 : α) ≤ |(k : α) - (n : α)| := by
        exact_mod_cast hint
      have htri : |(k : α) - (n : α)| ≤ |m - (k : α)| + |m - (n : α)| := by
        have harg : (k : α) - (n : α) = (m - n) - (m - k) := by ring
        calc |(k : α) - (n : α)| = |(m - (n : α)) - (m - (k : α))| := by
              rw [harg]
        _ ≤ |m - (n : α)| + |m - (k : α)| := abs_sub (m - (n : α)) (m - (k : α))
        _ = |m - (k : α)| + |m - (n : α)| := by ring
      linarith
    rw [hkn] at hk1 hk3
    rw [hk1, hk3]
    show (if (↑tol : WithTop α) < (↑|m - (n : α)| : WithTop α) then none
      else some (⟨noteName n, Int.fdiv n 12 - 1⟩ : Note)) =
        some ⟨noteName n, Int.fdiv n 12 - 1⟩
    rw [if_neg]
    rw [not_lt]
    exact_mod_cast le_trans (le_of_lt hnear) htol

end SnapLemmas

/-- Helper: the fractional MIDI value of 277.18 Hz (an on-pitch C#4)
lies strictly between 60.9 and 61.1, i.e. within 0.1 of the sharp MIDI
value 61 and at distance more than 0.9 from every other integer. -/
theorem midiOf_27718_bounds :
    (609 / 10 : ℝ) < midiOf 277.18 ∧ midiOf 277.18 < 611 / 10 := by
  have hr : (277.18 : ℝ) / 440 = 27718 / 44000 := by norm_num
  have hrpos : (0 : ℝ) < 27718 / 44000 := by norm_num
  have hb : (1 : ℝ) < 2 := one_lt_two
  constructor
  · have h1 : (2 : ℝ) ^ (-(27 : ℝ) / 40) < 27718 / 44000 := by
      refine lt_of_pow_lt_pow_left 40 (le_of_lt hrpos) ?_
      rw [← Real.rpow_natCast ((2 : ℝ) ^ (-(27 : ℝ) / 40)) 40,
        ← Real.rpow_mul two_pos.le,
        show -(27 : ℝ) / 40 * (40 : ℕ) = ((-27 : ℤ) : ℝ) by push_cast; ring,
        Real.rpow_intCast]
      norm_num
    have h2 : -(27 : ℝ) / 40 < Real.logb 2 (27718 / 44000) :=
      (Real.lt_logb_iff_rpow_lt hb hrpos).mpr h1
    rw [midiOf, hr]
    linarith
  · have h1 : (27718 / 44000 : ℝ) < 2 ^ (-(79 : ℝ) / 120) := by
      refine lt_of_pow_lt_pow_left 120
        (le_of_lt (Real.rpow_pos_of_pos (by norm_num) _)) ?_
      rw [← Real.rpow_natCast ((2 : ℝ) ^ (-(79 : ℝ) / 120)) 120,
        ← Real.rpow_mul two_pos.le,
        show -(79 : ℝ) / 120 * (120 : ℕ) = ((-79 : ℤ) : ℝ) by
          push_cast; ring,
        Real.rpow_intCast]
      norm_num
    have h2 : Real.logb 2 (27718 / 44000) < -(79 : ℝ) / 120 :=
      (Real.logb_lt_iff_lt_rpow hb hrpos).mpr h1
    rw [midiOf, hr]
    linarith

/-- C4: `freqToNote` rejects every frequency below 27 Hz or above
4200 Hz, rejects every in-range frequency all of whose natural-note
semitone distances exceed the snap tolerance, and in particular
rejects 277.18 Hz (C#4) at tolerance 0.1. -/
theorem freqToNote_rejections :
    (∀ f tol : ℝ, f < 27 ∨ f > 4200 → freqToNote f tol = none) ∧
    (∀ f tol : ℝ, 27 ≤ f → f ≤ 4200 →
      (∀ n : ℤ, IsNaturalMidi n → tol < |midiOf f - (n : ℝ)|) →
      freqToNote f tol = none) ∧
    freqToNote 277.18 0.1 = none := by
  have hmain : ∀ f tol : ℝ, 27 ≤ f → f ≤ 4200 →
      (∀ n : ℤ, IsNaturalMidi n → tol < |midiOf f - (n : ℝ)|) →
      freqToNote f tol = none := by
    intro f tol h27 h42 hfar
    rw [freqToNote, if_neg (by push_neg; constructor <;> linarith)]
    exact snapToNatural_none_of_far _ _ hfar
  refine ⟨?_, hmain, ?_⟩
  · intro f tol h
    rw [freqToNote, if_pos h]
  · refine hmain 277.18 0.1 (by norm_num) (by norm_num) ?_
    intro n hn
    obtain ⟨hlo, hhi⟩ := midiOf_27718_bounds
    have hne : n ≠ 61 := by
      intro h
      rw [h] at hn
      exact absurd hn (by decide)
    rcases lt_or_gt_of_ne hne with hlt | hgt
    · have hn60 : (n : ℝ) ≤ 60 := by exact_mod_cast (by omega : n ≤ 60)
      calc (0.1 : ℝ) < midiOf 277.18 - n := by linarith
      _ ≤ |midiOf 277.18 - n| := le_abs_self _
    · have hn62 : (62 : ℝ) ≤ n := by exact_mod_cast (by omega : 62 ≤ n)
      calc (0.1 : ℝ) < (n : ℝ) - midiOf 277.18 := by linarith
      _ ≤ |midiOf 277.18 - n| := by
        rw [abs_sub_comm]
        exact le_abs_self _

/-- Witness for C4 at concrete frequencies: infrasound, ultrasound and
the C#4 pitch. -/
theorem freqToNote_rejections_witness :
    ((20 : ℝ) < 27 ∨ (20 : ℝ) > 4200) ∧ freqToNote 20 0.45 = none ∧
    ((5000 : ℝ) < 27 ∨ (5000 : ℝ) > 4200) ∧ freqToNote 5000 0.45 = none ∧
    freqToNote 277.18 0.1 = none :=
  ⟨Or.inl (by norm_num), freqToNote_rejections.1 20 0.45
      (Or.inl (by norm_num)),
    Or.inr (by norm_num), freqToNote_rejections.1 5000 0.45
      (Or.inr (by norm_num)),
    freqToNote_rejections.2.2⟩

/-- Helper: 440 Hz maps to fractional MIDI value exactly 69. -/
theorem midiOf_440 : midiOf 440 = 69 := by
  rw [midiOf, div_self (by norm_num : (440 : ℝ) ≠ 0), Real.logb_one]
  norm_num

/-- C3 (amended): for every frequency in [27, 4200] Hz whose
fractional MIDI value is strictly within half a semitone of a natural
note's integer MIDI value, and every snap tolerance at least 0.5,
`freqToNote` returns that natural note with octave
`floor(candidateMidi / 12) - 1`. -/
theorem freqToNote_near_natural (f : ℝ) (n : ℤ) (tol : ℝ)
    (h27 : 27 ≤ f) (h42 : f ≤ 4200) (hnat : IsNaturalMidi n)
    (hnear : |midiOf f - (n : ℝ)| < 1 / 2) (htol : 1 / 2 ≤ tol) :
    freqToNote f tol = some ⟨noteName n, Int.fdiv n 12 - 1⟩ := by
  rw [freqToNote, if_neg (by push_neg; constructor <;> linarith)]
  exact snapToNatural_near _ n tol hnat hnear htol

/-- Witness for C3 at 440 Hz / MIDI 69 / tolerance 0.5. -/
theorem freqToNote_near_natural_witness :
    (27 : ℝ) ≤ 440 ∧ (440 : ℝ) ≤ 4200 ∧ IsNaturalMidi 69 ∧
    |midiOf 440 - (69 : ℝ)| < 1 / 2 ∧ ((1 : ℝ) / 2 ≤ 1 / 2) ∧
    freqToNote 440 (1 / 2) = some ⟨"A", 4⟩ := by
  refine ⟨by norm_num, by norm_num, by decide, ?_, by norm_num, ?_⟩
  · rw [midiOf_440]
    norm_num
  · rw [freqToNote_near_natural 440 69 (1 / 2) (by norm_num) (by norm_num)
      (by decide) (by rw [midiOf_440]; norm_num) (by norm_num)]
    decide

/-- Helper: the snapping loop at the exact half-semitone tie 64.5
returns E4 (MIDI 64), the lower of the two equidistant naturals,
because the strict `dist < bestDist` comparison keeps the first
minimum. -/
theorem snapToNatural_tie_eval :
    snapToNatural ((129 : ℝ) / 2) (1 / 2) = some ⟨"E", 4⟩ := by
  have hc : jsRound ((129 : ℝ) / 2) = 65 := by
    rw [jsRound, Int.floor_eq_iff]
    constructor <;> push_cast <;> norm_num
  have h63 : ((noteName (65 - 2)).data.contains '#') = true := by decide
  have h64 : ((noteName (65 - 1)).data.contains '#') = false := by decide
  have h65 : ((noteName 65).data.contains '#') = false := by decide
  have h66 : ((noteName (65 + 1)).data.contains '#') = true := by decide
  have h67 : ((noteName (65 + 2)).data.contains '#') = false := by decide
  have habs64 : |(129 : ℝ) / 2 - ((65 - 1 : ℤ) : ℝ)| = 1 / 2 := by
    rw [show (129 : ℝ) / 2 - ((65 - 1 : ℤ) : ℝ) = 1 / 2 by
      push_cast; norm_num]
    exact abs_of_nonneg (by norm_num)
  have habs65 : |(129 : ℝ) / 2 - ((65 : ℤ) : ℝ)| = 1 / 2 := by
    rw [show (129 : ℝ) / 2 - ((65 : ℤ) : ℝ) = -(1 / 2) by
      push_cast; norm_num, abs_neg]
    exact abs_of_nonneg (by norm_num)
  have habs67 : |(129 : ℝ) / 2 - ((65 + 2 : ℤ) : ℝ)| = 5 / 2 := by
    rw [show (129 : ℝ) / 2 - ((65 + 2 : ℤ) : ℝ) = -(5 / 2) by
      push_cast; norm_num, abs_neg]
    exact abs_of_nonneg (by norm_num)
  simp only [snapToNatural, hc, List.foldl, snapStep, h63, h64, h65, h66,
    h67, if_true, if_false, habs64, habs65, habs67]
  norm_num [WithTop.coe_lt_top, WithTop.coe_lt_coe]
  decide

/-- C3 counterexample to the original claim: the frequency
`440 * 2^(-3/8)` Hz lies in range and its fractional MIDI value 64.5
is within 0.5 semitones of the natural F4 (MIDI 65, octave
`fdiv 65 12 - 1 = 4`), with tolerance 0.5, yet `freqToNote` returns
E4, not F4 — at the exact half-semitone boundary the loop keeps the
lower natural. -/
theorem freqToNote_half_tie_counterexample :
    (27 : ℝ) ≤ 440 * (2 : ℝ) ^ (-(3 : ℝ) / 8) ∧
    440 * (2 : ℝ) ^ (-(3 : ℝ) / 8) ≤ 4200 ∧
    IsNaturalMidi 65 ∧
    |midiOf (440 * (2 : ℝ) ^ (-(3 : ℝ) / 8)) - (65 : ℝ)| ≤ 1 / 2 ∧
    ((1 : ℝ) / 2 ≤ 1 / 2) ∧
    freqToNote (440 * (2 : ℝ) ^ (-(3 : ℝ) / 8)) (1 / 2) =
      some ⟨"E", 4⟩ ∧
    (⟨"E", 4⟩ : Note) ≠ ⟨noteName 65, Int.fdiv 65 12 - 1⟩ := by
  have hle1 : (2 : ℝ) ^ (-(3 : ℝ) / 8) ≤ 1 :=
    Real.rpow_le_one_of_one_le_of_nonpos (by norm_num) (by norm_num)
  have hneg1 : (2 : ℝ) ^ (((-1 : ℤ) : ℝ)) = 1 / 2 := by
    rw [Real.rpow_intCast]
    norm_num
  have hhalf : (1 / 2 : ℝ) ≤ (2 : ℝ) ^ (-(3 : ℝ) / 8) := by
    rw [← hneg1]
    apply Real.rpow_le_rpow_of_exponent_le (by norm_num)
    push_cast
    norm_num
  have h27 : (27 : ℝ) ≤ 440 * (2 : ℝ) ^ (-(3 : ℝ) / 8) := by nlinarith
  have h42 : 440 * (2 : ℝ) ^ (-(3 : ℝ) / 8) ≤ 4200 := by nlinarith
  have harg : (440 : ℝ) * (2 : ℝ) ^ (-(3 : ℝ) / 8) / 440 =
      (2 : ℝ) ^ (-(3 : ℝ) / 8) := by
    ring
  have hmidi : midiOf (440 * (2 : ℝ) ^ (-(3 : ℝ) / 8)) = 129 / 2 := by
    rw [midiOf, harg, Real.logb_rpow (by norm_num) (by norm_num)]
    norm_num
  refine ⟨h27, h42, by decide, ?_, by norm_num, ?_, by decide⟩
  · rw [hmidi, show (129 : ℝ) / 2 - 65 = -(1 / 2) by norm_num, abs_neg]
    rw [abs_of_nonneg one_half_pos.le]
  · rw [freqToNote, if_neg (by push_neg; constructor <;> linarith), hmidi]
    exact snapToNatural_tie_eval
